import Mathlib

/-!
Shallow embedding of `noughts_and_crosses.py` (class `NoughtsAndCrosses` and
the search agent `ABMinimaxAgent`), together with theorems settling the
specification claims about it.

Modelling conventions:
* The numpy 3x3 string array becomes `board : Fin 3 → Fin 3 → Cell`;
  the player strings `'X'`/`'O'` become `Player`.
* `state.winner()` returns `'X'`, `'O'`, `'draw'` or `False`; this is the
  inductive `WinRes`.
* Raising an exception is modelled with `Option` (`none` = the call raises).
* The code is pure in effect: `move` deep-copies the state and mutates only
  the copy, so it is embedded as a function returning a new value; the
  claims that the input board is never mutated hold by construction in
  this embedding.
* `math.inf` and `-math.inf` are modelled as the integers `2` and `-2`:
  every game value lies in `[-1, 1]`, and the infinities are only ever
  compared against such values (or replaced by them via `max`/`min`), so any
  bound strictly outside `[-1, 1]` behaves exactly like the corresponding
  infinity.  This keeps all arithmetic in `ℤ`.
* The recursion of `get_value` is bounded by the number of empty cells,
  which never exceeds 9; the embedding makes this explicit with a fuel
  argument, and the top-level functions use fuel 9.  Fuel-irrelevance
  (`get_valueF_irrel`, `minimaxF_irrel`) certifies that any fuel at least
  the number of empty cells computes the same value.
-/

/-- A cell of the grid: `' '`, `'O'` or `'X'` in the source. -/
inductive Cell where
  | empty
  | nought
  | cross
deriving DecidableEq

/-- A player symbol, `'O'` or `'X'` in the source. -/
inductive Player where
  | nought
  | cross
deriving DecidableEq, Fintype

/-- The grid symbol written by a player (`state.next_player` is stored
directly into the array in the source). -/
def Player.symbol : Player → Cell
  | .nought => .nought
  | .cross => .cross

/-- `self.flip_player` dictionary from `NoughtsAndCrosses.__init__`. -/
def flip_player : Player → Player
  | .nought => .cross
  | .cross => .nought

/-- The partial inverse of `Player.symbol`: which player owns a cell value. -/
def cellPlayer : Cell → Option Player
  | .empty => none
  | .nought => some .nought
  | .cross => some .cross

/-- The game state of class `NoughtsAndCrosses`: the 3x3 grid and the player
to move next. -/
structure NoughtsAndCrosses where
  board : Fin 3 → Fin 3 → Cell
  next_player : Player

instance : DecidableEq NoughtsAndCrosses := fun s t =>
  decidable_of_iff (s.board = t.board ∧ s.next_player = t.next_player)
    (by cases s; cases t; simp)

/-- `NoughtsAndCrosses.__init__`: empty grid, Cross moves first. -/
def initial : NoughtsAndCrosses :=
  { board := fun _ _ => Cell.empty, next_player := Player.cross }

/-- The result of `NoughtsAndCrosses.winner()`: a winning symbol, `'draw'`,
or `False` (game still in progress). -/
inductive WinRes where
  | win (p : Player)
  | draw
  | inProgress
deriving DecidableEq

/-- All grid coordinates in row-major order (row ascending, then column):
the order in which `np.nonzero` enumerates a 3x3 array. -/
def rowMajor : List (Fin 3 × Fin 3) :=
  [(0, 0), (0, 1), (0, 2), (1, 0), (1, 1), (1, 2), (2, 0), (2, 1), (2, 2)]

/-- The eight lines checked by `winner()`, in the order the source checks
them: the loop `for i in range(3)` checks row `i` then column `i`, and the
two diagonal checks follow. -/
def checkOrder : List ((Fin 3 × Fin 3) × (Fin 3 × Fin 3) × (Fin 3 × Fin 3)) :=
  [((0, 0), (0, 1), (0, 2)), ((0, 0), (1, 0), (2, 0)),
   ((1, 0), (1, 1), (1, 2)), ((0, 1), (1, 1), (2, 1)),
   ((2, 0), (2, 1), (2, 2)), ((0, 2), (1, 2), (2, 2)),
   ((0, 0), (1, 1), (2, 2)), ((2, 0), (1, 1), (0, 2))]

/-- One line check of `winner()`: the three cells hold the same non-empty
symbol (`np.all(triple == first) and first != EMPTY`); on a match the
symbol's owner is returned.  The diagonal checks in the source are written
as explicit conjunctions of equalities guarded by a non-empty test on the
first cell, which is the same condition. -/
def lineOwner (s : NoughtsAndCrosses)
    (t : (Fin 3 × Fin 3) × (Fin 3 × Fin 3) × (Fin 3 × Fin 3)) : Option Player :=
  if s.board t.1.1 t.1.2 ≠ Cell.empty ∧
      s.board t.2.1.1 t.2.1.2 = s.board t.1.1 t.1.2 ∧
      s.board t.2.2.1 t.2.2.2 = s.board t.1.1 t.1.2 then
    cellPlayer (s.board t.1.1 t.1.2)
  else
    none

/-- `np.all(self.board != self.EMPTY)`: every cell of the grid is filled. -/
def boardFull (s : NoughtsAndCrosses) : Bool :=
  rowMajor.all fun m => decide (s.board m.1 m.2 ≠ Cell.empty)

/-- `NoughtsAndCrosses.winner()`: the first matching line (rows and columns
interleaved by index, then the two diagonals) decides the winner; with no
matching line, a full board is a draw and otherwise the game is in
progress (`False` in the source). -/
def winner (s : NoughtsAndCrosses) : WinRes :=
  match checkOrder.findSome? (lineOwner s) with
  | some p => WinRes.win p
  | none => if boardFull s then WinRes.draw else WinRes.inProgress

/-- Numpy index semantics for an axis of length 3: indices `0..2` are used
directly, `-3..-1` address from the end (`i + 3`), anything else raises
`IndexError` (modelled by `none`). -/
def npIdx (i : ℤ) : Option (Fin 3) :=
  if h : 0 ≤ i ∧ i < 3 then some ⟨i.toNat, by omega⟩
  else if h2 : -3 ≤ i ∧ i < 0 then some ⟨(i + 3).toNat, by omega⟩
  else none

/-- `NoughtsAndCrosses.valid_move(row, col)`:
`self.board[row, col] == self.EMPTY`, with numpy indexing of the integer
arguments (`none` = `IndexError`). -/
def valid_move (s : NoughtsAndCrosses) (row col : ℤ) : Option Bool :=
  match npIdx row, npIdx col with
  | some r, some c => some (decide (s.board r c = Cell.empty))
  | _, _ => none

/-- The cell addressed by integer coordinates taken modulo 3: on the range
`[-3, 2]` this is exactly numpy's wrapped indexing (`i` itself for
`0 ≤ i ≤ 2`, `i + 3` for `-3 ≤ i ≤ -1`).  Used to state what `valid_move`
computes on indices that do not raise. -/
def zcell (s : NoughtsAndCrosses) (row col : ℤ) : Cell :=
  s.board ⟨(row % 3).toNat, by omega⟩ ⟨(col % 3).toNat, by omega⟩

/-- The state after writing the mover's symbol and flipping the player:
the body of `NoughtsAndCrosses.move` acting on the deep copy. -/
def place (s : NoughtsAndCrosses) (row col : Fin 3) : NoughtsAndCrosses :=
  { board := fun r c =>
      if r = row ∧ c = col then s.next_player.symbol else s.board r c,
    next_player := flip_player s.next_player }

/-- `NoughtsAndCrosses.move(row, col)` for in-range indices: raises
`ValueError("Position not empty")` (here `none`) when the target cell is
occupied, otherwise returns the updated copy; the original value is
untouched (the source mutates only its deep copy). -/
def move (s : NoughtsAndCrosses) (row col : Fin 3) : Option NoughtsAndCrosses :=
  if s.board row col = Cell.empty then some (place s row col) else none

/-- `NoughtsAndCrosses.actions()`:
`np.nonzero(self.board == self.EMPTY)` enumerates the empty cells of the
grid in row-major order. -/
def actions (s : NoughtsAndCrosses) : List (Fin 3 × Fin 3) :=
  rowMajor.filter fun m => decide (s.board m.1 m.2 = Cell.empty)

/-- Number of cells of the grid currently holding `x`. -/
def countCell (s : NoughtsAndCrosses) (x : Cell) : ℕ :=
  (rowMajor.filter fun m => decide (s.board m.1 m.2 = x)).length

/-- Number of non-empty cells of the grid. -/
def nonEmptyCount (s : NoughtsAndCrosses) : ℕ :=
  (rowMajor.filter fun m => !(decide (s.board m.1 m.2 = Cell.empty))).length

/-- Cross count minus Nought count, as an integer. -/
def crossMinusNought (s : NoughtsAndCrosses) : ℤ :=
  (countCell s Cell.cross : ℤ) - (countCell s Cell.nought : ℤ)

/-- Number of empty cells; bounds the depth of the search recursion. -/
def emptyCells (s : NoughtsAndCrosses) : ℕ :=
  (actions s).length

/-- Strict row-major precedence between grid coordinates: earlier row, or
same row and earlier column. -/
def rowMajorLt (a b : Fin 3 × Fin 3) : Prop :=
  a.1 < b.1 ∨ (a.1 = b.1 ∧ a.2 < b.2)

instance (a b : Fin 3 × Fin 3) : Decidable (rowMajorLt a b) :=
  inferInstanceAs (Decidable (_ ∨ _))

/-- The property language of the outcome claims: `p` owns a completed row,
column or diagonal (three identical non-empty symbols). -/
def hasLine (s : NoughtsAndCrosses) (p : Player) : Prop :=
  ∃ t ∈ checkOrder, s.board t.1.1 t.1.2 = p.symbol ∧
    s.board t.2.1.1 t.2.1.2 = p.symbol ∧ s.board t.2.2.1 t.2.2.2 = p.symbol

instance (s : NoughtsAndCrosses) (p : Player) : Decidable (hasLine s p) := by
  unfold hasLine
  infer_instance

/-- The coupled turn/count invariant: Cross is to move and the counts are
level, or Nought is to move and Cross leads by one. -/
def TurnCountInv (s : NoughtsAndCrosses) : Prop :=
  (s.next_player = Player.cross ∧ crossMinusNought s = 0) ∨
    (s.next_player = Player.nought ∧ crossMinusNought s = 1)

/-- Boards reachable from the initial board by legal moves (successful
`move` calls). -/
inductive Reachable : NoughtsAndCrosses → Prop where
  | base : Reachable initial
  | step {s : NoughtsAndCrosses} {row col : Fin 3} : Reachable s →
      s.board row col = Cell.empty → Reachable (place s row col)

/-- The terminal evaluation at the head of `ABMinimaxAgent.get_value`:
`+1` when `winner` is the fixed player, `-1` when it is the opponent,
`0` on a draw, and `none` when the game is still running (in the source,
`winner == False` matches none of the three tests and the search
continues). -/
def score (s : NoughtsAndCrosses) (player : Player) : Option ℤ :=
  match winner s with
  | WinRes.win q => if q = player then some 1 else some (-1)
  | WinRes.draw => some 0
  | WinRes.inProgress => none

/-- The `for action in state.actions()` loop of `ABMinimaxAgent.get_value`:
`child a α β` is the recursive evaluation of the state after `a`.  In the
minimizing branch `beta` is lowered to `min beta av` and the loop returns
`av` at once when `av ≤ alpha`; the maximizing branch is dual; otherwise
the running best value is updated and the loop continues with the
narrowed window. -/
def abLoop (child : Fin 3 × Fin 3 → ℤ → ℤ → ℤ) (get_min : Bool) :
    List (Fin 3 × Fin 3) → ℤ → ℤ → ℤ → ℤ
  | [], _, _, best_value => best_value
  | a :: rest, alpha, beta, best_value =>
    let action_value := child a alpha beta
    if get_min then
      if action_value ≤ alpha then action_value
      else
        abLoop child get_min rest alpha (min beta action_value)
          (if action_value < best_value then action_value else best_value)
    else
      if beta ≤ action_value then action_value
      else
        abLoop child get_min rest (max alpha action_value) beta
          (if best_value < action_value then action_value else best_value)

/-- `ABMinimaxAgent.get_value(state, player, get_min, alpha, beta)` with an
explicit fuel bounding the recursion depth.  A non-terminal board always
has an empty cell, so with `emptyCells s ≤ fuel` the `fuel = 0` fallback is
never reached.  The initial `best_value` is `-inf` for the maximizing
branch and `+inf` for the minimizing branch. -/
def get_valueF : ℕ → NoughtsAndCrosses → Player → Bool → ℤ → ℤ → ℤ
  | 0, s, player, _, _, _ =>
    match score s player with
    | some v => v
    | none => 0
  | fuel' + 1, s, player, get_min, alpha, beta =>
    match score s player with
    | some v => v
    | none =>
      abLoop (fun a α β => get_valueF fuel' (place s a.1 a.2) player (!get_min) α β)
        get_min (actions s) alpha beta (if get_min then 2 else -2)

/-- `ABMinimaxAgent.get_value`: fuel 9 suffices from every state, since a
board never has more than 9 empty cells. -/
def get_value (s : NoughtsAndCrosses) (player : Player) (get_min : Bool)
    (alpha beta : ℤ) : ℤ :=
  get_valueF 9 s player get_min alpha beta

/-- Modelled from the spec: exhaustive, unpruned minimax over the same game
tree, used as the reference value for the refinement claims.  A terminal
position scores `+1 / -1 / 0` from the fixed root player's perspective;
a non-terminal position takes the minimum (on a minimizing layer) or
maximum (on a maximizing layer) of its children's values.  The fold
starts from the modelled infinity `∓2`, which is absorbed because a
non-terminal board has at least one child with value in `[-1, 1]`. -/
def minimaxF : ℕ → NoughtsAndCrosses → Player → Bool → ℤ
  | 0, s, player, _ =>
    match score s player with
    | some v => v
    | none => 0
  | fuel' + 1, s, player, get_min =>
    match score s player with
    | some v => v
    | none =>
      let vs := (actions s).map fun a =>
        minimaxF fuel' (place s a.1 a.2) player (!get_min)
      if get_min then vs.foldl min 2 else vs.foldl max (-2)

/-- Exhaustive minimax at the sufficient fuel 9. -/
def minimax (s : NoughtsAndCrosses) (player : Player) (get_min : Bool) : ℤ :=
  minimaxF 9 s player get_min

/-- The root loop of `ABMinimaxAgent.next_move`: `f a` is the value of root
move `a`.  The two separate `if` statements of the source are mirrored
exactly: a strictly better move resets the candidate list *and* is then
also appended by the second test (which now compares equal), so the move
that set the current best appears twice. -/
def bestLoop (f : Fin 3 × Fin 3 → ℤ) :
    List (Fin 3 × Fin 3) → List (Fin 3 × Fin 3) → ℤ → List (Fin 3 × Fin 3) × ℤ
  | [], best_action, best_value => (best_action, best_value)
  | a :: rest, best_action, best_value =>
    let action_value := f a
    let p1 := if best_value < action_value then ([a], action_value)
      else (best_action, best_value)
    let p2 := if action_value = p1.2 then (p1.1 ++ [a], p1.2) else p1
    bestLoop f rest p2.1 p2.2

/-- The candidate list `best_action` built by `ABMinimaxAgent.next_move`
before the final `random.choice(best_action)`: every root move is scored
by `get_value(state.move(action), player, get_min=True)` with the default
full window, starting from `best_value = -inf` and the empty list. -/
def nextMoveCandidates (s : NoughtsAndCrosses) : List (Fin 3 × Fin 3) :=
  (bestLoop (fun a => get_value (place s a.1 a.2) s.next_player true (-2) 2)
    (actions s) [] (-2)).1

/-- `ABMinimaxAgent.next_move(state)`: `random.choice(best_action)` returns
an element of the candidate list chosen uniformly at random, and raises
`IndexError` on an empty list.  The `Option` models success/failure; which
element is chosen is modelled by `head?`, and distribution-sensitive
claims are stated directly about `nextMoveCandidates`. -/
def next_move (s : NoughtsAndCrosses) : Option (Fin 3 × Fin 3) :=
  (nextMoveCandidates s).head?

/-- Helper for writing concrete boards, row by row. -/
def mkBoard (a b c d e f g h i : Cell) : Fin 3 → Fin 3 → Cell := fun r col =>
  match r.val, col.val with
  | 0, 0 => a | 0, 1 => b | 0, 2 => c
  | 1, 0 => d | 1, 1 => e | 1, 2 => f
  | 2, 0 => g | 2, 1 => h | 2, 2 => i
  | _, _ => Cell.empty

/-- In-progress board with Nought to move whose two legal moves `(1,1)` and
`(1,2)` both lose (value `-1`), i.e. a genuine tie at the maximum:
```
X O X
O . .
O X X
```
-/
def tieBoard : NoughtsAndCrosses :=
  { board := mkBoard .cross .nought .cross .nought .empty .empty
      .nought .cross .cross,
    next_player := .nought }

/-- A board already won by Cross (top row) that still has empty cells,
with Nought to move:
```
X X X
O O .
. . .
```
-/
def wonBoard : NoughtsAndCrosses :=
  { board := mkBoard .cross .cross .cross .nought .nought .empty
      .empty .empty .empty,
    next_player := .nought }

/-- A board holding completed lines for both players (unreachable in play
that stops at the first win, but a legal value of the board type):
```
X X X
O O O
. . .
```
-/
def twoLinesBoard : NoughtsAndCrosses :=
  { board := mkBoard .cross .cross .cross .nought .nought .nought
      .empty .empty .empty,
    next_player := .cross }

/-- A full board whose only completed line is three Crosses in row 0:
```
X X X
O O X
O X O
```
-/
def xRowBoard : NoughtsAndCrosses :=
  { board := mkBoard .cross .cross .cross .nought .nought .cross
      .nought .cross .nought,
    next_player := .nought }

/-- A fully filled board with no three-in-a-row:
```
X X O
O O X
X X O
```
-/
def fullDrawBoard : NoughtsAndCrosses :=
  { board := mkBoard .cross .cross .nought .nought .nought .cross
      .cross .cross .nought,
    next_player := .cross }

/-- An all-empty board with Nought to move: it satisfies the bare
count invariant (difference 0) but moving breaks that invariant. -/
def noughtFirstBoard : NoughtsAndCrosses :=
  { board := fun _ _ => Cell.empty, next_player := Player.nought }

section BasicLemmas

lemma mem_rowMajor (m : Fin 3 × Fin 3) : m ∈ rowMajor := by
  rcases m with ⟨r, c⟩
  fin_cases r <;> fin_cases c <;> decide

lemma mem_actions {s : NoughtsAndCrosses} {m : Fin 3 × Fin 3} :
    m ∈ actions s ↔ s.board m.1 m.2 = Cell.empty := by
  unfold actions
  rw [List.mem_filter]
  simp [mem_rowMajor]

lemma place_board_ne {s : NoughtsAndCrosses} {row col r c : Fin 3}
    (h : (r, c) ≠ (row, col)) : (place s row col).board r c = s.board r c := by
  unfold place
  simp only
  rw [if_neg]
  intro hrc
  exact h (by simp [Prod.ext_iff, hrc.1, hrc.2])

lemma place_board_self (s : NoughtsAndCrosses) (row col : Fin 3) :
    (place s row col).board row col = s.next_player.symbol := by
  unfold place
  simp

lemma symbol_ne_empty (p : Player) : p.symbol ≠ Cell.empty := by
  cases p <;> simp [Player.symbol]

lemma boardFull_iff {s : NoughtsAndCrosses} :
    boardFull s = true ↔ ∀ r c : Fin 3, s.board r c ≠ Cell.empty := by
  unfold boardFull
  rw [List.all_eq_true]
  constructor
  · intro h r c
    exact of_decide_eq_true (h (r, c) (mem_rowMajor _))
  · intro h m _
    exact decide_eq_true (h m.1 m.2)

end BasicLemmas

section FoldLemmas

lemma init_le_foldl_max : ∀ (l : List ℤ) (b : ℤ), b ≤ l.foldl max b := by
  intro l
  induction l with
  | nil => intro b; exact le_refl b
  | cons x t ih =>
    intro b
    calc b ≤ max b x := le_max_left b x
    _ ≤ (t.foldl max (max b x)) := ih (max b x)

lemma mem_le_foldl_max : ∀ (l : List ℤ) (b x : ℤ), x ∈ l → x ≤ l.foldl max b := by
  intro l
  induction l with
  | nil => intro b x hx; cases hx
  | cons y t ih =>
    intro b x hx
    rcases List.mem_cons.mp hx with h | h
    · subst h
      calc x ≤ max b x := le_max_right b x
      _ ≤ t.foldl max (max b x) := init_le_foldl_max t (max b x)
    · exact ih (max b y) x h

lemma foldl_min_le_init : ∀ (l : List ℤ) (b : ℤ), l.foldl min b ≤ b := by
  intro l
  induction l with
  | nil => intro b; exact le_refl b
  | cons x t ih =>
    intro b
    calc t.foldl min (min b x) ≤ min b x := ih (min b x)
    _ ≤ b := min_le_left b x

lemma foldl_min_le_mem : ∀ (l : List ℤ) (b x : ℤ), x ∈ l → l.foldl min b ≤ x := by
  intro l
  induction l with
  | nil => intro b x hx; cases hx
  | cons y t ih =>
    intro b x hx
    rcases List.mem_cons.mp hx with h | h
    · subst h
      calc t.foldl min (min b x) ≤ min b x := foldl_min_le_init t (min b x)
      _ ≤ x := min_le_right b x
    · exact ih (min b y) x h

end FoldLemmas

section FilterLemmas

lemma length_filter_both {α : Type} (p : α → Bool) :
    ∀ l : List α, (l.filter p).length + (l.filter fun a => !(p a)).length = l.length := by
  intro l
  induction l with
  | nil => rfl
  | cons x t ih =>
    cases hx : p x <;> simp [List.filter_cons, hx] <;> omega

lemma length_filter_update {α : Type} [DecidableEq α] :
    ∀ (l : List α), l.Nodup → ∀ (a : α), a ∈ l → ∀ (p q : α → Bool),
      p a = false → q a = true → (∀ x ∈ l, x ≠ a → p x = q x) →
      (l.filter q).length = (l.filter p).length + 1 := by
  intro l
  induction l with
  | nil => intro _ a ha; cases ha
  | cons x t ih =>
    intro hnd a ha p q hpa hqa hagree
    rcases List.mem_cons.mp ha with h | h
    · subst h
      have hat : a ∉ t := (List.nodup_cons.mp hnd).1
      have ht : t.filter p = t.filter q := by
        apply List.filter_congr
        intro y hy
        exact hagree y (List.mem_cons_of_mem a hy) (fun hya => hat (hya ▸ hy))
      simp [List.filter_cons, hpa, hqa, ht]
    · have hax : x ≠ a := fun hxa => ((List.nodup_cons.mp hnd).1 (hxa ▸ h))
      have hx : p x = q x := hagree x (List.mem_cons_self x t) hax
      have := ih (List.nodup_cons.mp hnd).2 a h p q hpa hqa
        (fun y hy hya => hagree y (List.mem_cons_of_mem x hy) hya)
      cases hcase : q x <;> rw [hcase] at hx <;>
        simp [List.filter_cons, hcase, hx, this]

lemma rowMajor_nodup : rowMajor.Nodup := by decide

lemma countCell_place_symbol {s : NoughtsAndCrosses} {row col : Fin 3}
    (h : s.board row col = Cell.empty) :
    countCell (place s row col) s.next_player.symbol
      = countCell s s.next_player.symbol + 1 := by
  unfold countCell
  apply length_filter_update rowMajor rowMajor_nodup (row, col) (mem_rowMajor _)
  · rw [h]
    simp [(symbol_ne_empty s.next_player).symm]
  · simp [place_board_self]
  · intro x _ hx
    rw [place_board_ne hx]

lemma countCell_place_other {s : NoughtsAndCrosses} {row col : Fin 3} {x : Cell}
    (h : s.board row col = Cell.empty) (hx : x ≠ Cell.empty)
    (hxs : x ≠ s.next_player.symbol) :
    countCell (place s row col) x = countCell s x := by
  unfold countCell
  congr 1
  apply List.filter_congr
  intro m _
  by_cases hm : m = (row, col)
  · subst hm
    rw [place_board_self, h]
    simp [Ne.symm hx, Ne.symm hxs]
  · rw [place_board_ne hm]

lemma emptyCells_place {s : NoughtsAndCrosses} {row col : Fin 3}
    (h : s.board row col = Cell.empty) :
    emptyCells s = emptyCells (place s row col) + 1 := by
  unfold emptyCells actions
  apply length_filter_update rowMajor rowMajor_nodup (row, col) (mem_rowMajor _)
  · simp [place_board_self, symbol_ne_empty s.next_player]
  · simp [h]
  · intro m _ hm
    rw [place_board_ne hm]

lemma emptyCells_le_nine (s : NoughtsAndCrosses) : emptyCells s ≤ 9 := by
  have := List.length_filter_le
    (fun m : Fin 3 × Fin 3 => decide (s.board m.1 m.2 = Cell.empty)) rowMajor
  simpa [emptyCells, actions] using this

end FilterLemmas

section ScoreLemmas

lemma score_bounds {s : NoughtsAndCrosses} {p : Player} {v : ℤ}
    (h : score s p = some v) : -1 ≤ v ∧ v ≤ 1 := by
  unfold score at h
  rcases hw : winner s with q | _ | _ <;> rw [hw] at h
  · by_cases hq : q = p <;> simp [hq] at h <;> omega
  · simp at h
    omega
  · simp at h

lemma score_none_actions_ne {s : NoughtsAndCrosses} {p : Player}
    (h : score s p = none) : actions s ≠ [] := by
  intro hac
  have hall : ∀ m : Fin 3 × Fin 3, s.board m.1 m.2 ≠ Cell.empty := by
    intro m hm
    have : m ∈ actions s := mem_actions.mpr hm
    rw [hac] at this
    cases this
  have hfull : boardFull s = true := boardFull_iff.mpr fun r c => hall (r, c)
  unfold score at h
  rcases hw : winner s with q | _ | _ <;> rw [hw] at h
  · by_cases hq : q = p <;> simp [hq] at h
  · simp at h
  · unfold winner at hw
    rcases hf : checkOrder.findSome? (lineOwner s) with _ | q <;> rw [hf] at hw
    · rw [if_pos hfull] at hw
      cases hw
    · cases hw

lemma score_none_empty_pos {s : NoughtsAndCrosses} {p : Player}
    (h : score s p = none) : 0 < emptyCells s := by
  have := score_none_actions_ne h
  unfold emptyCells
  exact List.length_pos.mpr this

end ScoreLemmas

section WinnerLemmas

lemma cellPlayer_some_iff {x : Cell} {p : Player} :
    cellPlayer x = some p ↔ x = p.symbol := by
  cases x <;> cases p <;> simp [cellPlayer, Player.symbol]

lemma lineOwner_some_iff {s : NoughtsAndCrosses}
    {t : (Fin 3 × Fin 3) × (Fin 3 × Fin 3) × (Fin 3 × Fin 3)} {p : Player} :
    lineOwner s t = some p ↔
      (s.board t.1.1 t.1.2 = p.symbol ∧ s.board t.2.1.1 t.2.1.2 = p.symbol ∧
        s.board t.2.2.1 t.2.2.2 = p.symbol) := by
  unfold lineOwner
  split_ifs with h
  · rw [cellPlayer_some_iff]
    constructor
    · intro hb
      exact ⟨hb, h.2.1.trans hb, h.2.2.trans hb⟩
    · exact fun hb => hb.1
  · constructor
    · intro hc
      cases hc
    · rintro ⟨h1, h2, h3⟩
      exact absurd ⟨by rw [h1]; exact symbol_ne_empty p, by rw [h2, h1],
        by rw [h3, h1]⟩ h

lemma hasLine_iff {s : NoughtsAndCrosses} {p : Player} :
    hasLine s p ↔ ∃ t ∈ checkOrder, lineOwner s t = some p := by
  unfold hasLine
  constructor
  · rintro ⟨t, ht, hc⟩
    exact ⟨t, ht, lineOwner_some_iff.mpr hc⟩
  · rintro ⟨t, ht, hc⟩
    exact ⟨t, ht, lineOwner_some_iff.mp hc⟩

lemma winner_spec (s : NoughtsAndCrosses) :
    (∃ q, winner s = WinRes.win q ∧ hasLine s q) ∨
    (winner s = WinRes.draw ∧ boardFull s = true ∧ ∀ p, ¬ hasLine s p) ∨
    (winner s = WinRes.inProgress ∧ boardFull s = false ∧ ∀ p, ¬ hasLine s p) := by
  unfold winner
  cases hf : checkOrder.findSome? (lineOwner s) with
  | none =>
    have hnl : ∀ p, ¬ hasLine s p := by
      intro p hl
      obtain ⟨t, ht, hlo⟩ := hasLine_iff.mp hl
      have := List.findSome?_eq_none_iff.mp hf t ht
      rw [this] at hlo
      cases hlo
    cases hfull : boardFull s with
    | true => exact Or.inr (Or.inl ⟨by simp, rfl, hnl⟩)
    | false => exact Or.inr (Or.inr ⟨by simp, rfl, hnl⟩)
  | some q =>
    obtain ⟨l₁, a, l₂, heq, hfa, -⟩ := List.findSome?_eq_some_iff.mp hf
    refine Or.inl ⟨q, rfl, hasLine_iff.mpr ⟨a, ?_, hfa⟩⟩
    rw [heq]
    exact List.mem_append_right _ (List.mem_cons_self a l₂)

lemma winner_win_hasLine {s : NoughtsAndCrosses} {p : Player}
    (h : winner s = WinRes.win p) : hasLine s p := by
  rcases winner_spec s with ⟨q, hw, hl⟩ | ⟨hw, -, -⟩ | ⟨hw, -, -⟩
  · have := h.symm.trans hw
    injection this with hq
    rw [hq]
    exact hl
  · rw [h] at hw
    cases hw
  · rw [h] at hw
    cases hw

end WinnerLemmas

/-- C5 counterexample: on a board holding a completed Cross line *and* a
completed Nought line, `winner` returns the first match (Cross) — so
"`outcome` returns Winner(s) if and only if some line consists of three
identical non-empty symbols s" fails for s = Nought on this board. -/
theorem winner_two_lines_cex :
    hasLine twoLinesBoard Player.nought ∧
    winner twoLinesBoard ≠ WinRes.win Player.nought := by
  constructor
  · exact ⟨((1, 0), (1, 1), (1, 2)), by decide, by decide⟩
  · decide

/-- C5 (amended): `winner` returns `Winner(p)` only if `p` owns a line;
it returns `Draw` exactly when no line exists and no cell is empty, and
`InProgress` exactly when no line exists and some cell is empty; and on
every board whose completed lines all belong to a single symbol (true of
any position reached in play that stops at the first win) the full
"Winner(p) iff p owns a line" equivalence holds.  In particular the empty
board is `InProgress`, a board with three Crosses in row 0 (and no other
line) is `Winner(Cross)`, and a full board with no line is `Draw`. -/
theorem winner_classification_amended (s : NoughtsAndCrosses) :
    (∀ p, winner s = WinRes.win p → hasLine s p) ∧
    (winner s = WinRes.draw ↔
      ((∀ p, ¬ hasLine s p) ∧ ∀ r c : Fin 3, s.board r c ≠ Cell.empty)) ∧
    ((∀ p q, hasLine s p → hasLine s q → p = q) →
      ∀ p, (winner s = WinRes.win p ↔ hasLine s p)) ∧
    (winner s = WinRes.inProgress ↔
      ((∀ p, ¬ hasLine s p) ∧ ∃ r c : Fin 3, s.board r c = Cell.empty)) ∧
    (winner initial = WinRes.inProgress ∧
      winner xRowBoard = WinRes.win Player.cross ∧
      winner fullDrawBoard = WinRes.draw) := by
  refine ⟨fun p => winner_win_hasLine, ?_, ?_, ?_, by decide, by decide, by decide⟩
  · rcases winner_spec s with ⟨q, hw, hl⟩ | ⟨hw, hfull, hnl⟩ | ⟨hw, hfull, hnl⟩
    · rw [hw]
      constructor
      · intro h
        cases h
      · rintro ⟨hno, -⟩
        exact absurd hl (hno q)
    · rw [hw]
      constructor
      · intro _
        exact ⟨hnl, boardFull_iff.mp hfull⟩
      · intro _
        rfl
    · rw [hw]
      constructor
      · intro h
        cases h
      · rintro ⟨-, hfl⟩
        rw [boardFull_iff.mpr hfl] at hfull
        cases hfull
  · intro huniq p
    constructor
    · exact winner_win_hasLine
    · intro hl
      rcases hw : winner s with q | _ | _
      · rw [huniq q p (winner_win_hasLine hw) hl]
      · rcases winner_spec s with ⟨q, hw', -⟩ | ⟨-, -, hnl⟩ | ⟨-, -, hnl⟩
        · rw [hw] at hw'
          cases hw'
        · exact absurd hl (hnl p)
        · exact absurd hl (hnl p)
      · rcases winner_spec s with ⟨q, hw', -⟩ | ⟨-, -, hnl⟩ | ⟨-, -, hnl⟩
        · rw [hw] at hw'
          cases hw'
        · exact absurd hl (hnl p)
        · exact absurd hl (hnl p)
  · rcases winner_spec s with ⟨q, hw, hl⟩ | ⟨hw, hfull, hnl⟩ | ⟨hw, hfull, hnl⟩
    · rw [hw]
      constructor
      · intro h
        cases h
      · rintro ⟨hno, -⟩
        exact absurd hl (hno q)
    · rw [hw]
      constructor
      · intro h
        cases h
      · rintro ⟨-, r, c, hrc⟩
        exact absurd hrc (boardFull_iff.mp hfull r c)
    · rw [hw]
      constructor
      · intro _
        refine ⟨hnl, ?_⟩
        by_contra hne
        push_neg at hne
        rw [boardFull_iff.mpr hne] at hfull
        cases hfull
      · intro _
        rfl

/-- C5 witness: on the full board whose only line is three Crosses in
row 0, the amended equivalence applies (its uniqueness hypothesis holds)
and classifies the board as won by Cross. -/
theorem winner_classification_amended_witness :
    winner xRowBoard = WinRes.win Player.cross ↔ hasLine xRowBoard Player.cross :=
  (winner_classification_amended xRowBoard).2.2.1 (by decide) Player.cross

/-- C6: for every board and every in-range move, `move` fails (raises
`ValueError`, the `InvalidMove` of the spec) exactly when the target cell
is not empty.  The embedding is purely functional — the source deep-copies
the state and mutates only the copy — so the input board is unchanged by
construction whether or not the call fails. -/
theorem move_fails_iff_occupied (s : NoughtsAndCrosses) (row col : Fin 3) :
    move s row col = none ↔ s.board row col ≠ Cell.empty := by
  unfold move
  split_ifs with h <;> simp [h]

/-- C7: `actions` returns exactly the coordinates of the empty cells, in
strict row-major order, and its length plus the number of non-empty cells
is 9.  Proved for every board, which covers in particular every reachable
one. -/
theorem actions_exactly_empty_row_major (s : NoughtsAndCrosses) :
    (∀ m : Fin 3 × Fin 3, m ∈ actions s ↔ s.board m.1 m.2 = Cell.empty) ∧
    (actions s).Pairwise rowMajorLt ∧
    (actions s).length + nonEmptyCount s = 9 := by
  refine ⟨fun _ => mem_actions, ?_, ?_⟩
  · have hrm : rowMajor.Pairwise rowMajorLt := by decide
    exact List.Pairwise.sublist (List.filter_sublist rowMajor) hrm
  · exact length_filter_both _ rowMajor

/-- C8: a legal `move` succeeds with a new board where the target cell
holds the mover's symbol, every other cell is unchanged from the input,
and the player to move is flipped.  The input value itself cannot change:
the embedding is pure because the source mutates only its deep copy. -/
theorem move_updates_only_target (s : NoughtsAndCrosses) (row col : Fin 3)
    (h : s.board row col = Cell.empty) :
    move s row col = some (place s row col) ∧
    (place s row col).board row col = s.next_player.symbol ∧
    (∀ r c : Fin 3, (r, c) ≠ (row, col) → (place s row col).board r c = s.board r c) ∧
    (place s row col).next_player = flip_player s.next_player := by
  refine ⟨?_, place_board_self s row col, fun r c hrc => place_board_ne hrc, rfl⟩
  unfold move
  rw [if_pos h]

/-- C8 witness: the first move on the empty board. -/
theorem move_updates_only_target_witness :
    move initial 0 0 = some (place initial 0 0) ∧
    (place initial 0 0).board 1 1 = initial.board 1 1 := by
  have h := move_updates_only_target initial 0 0 (by decide)
  exact ⟨h.1, (h.2.2.1 1 1 (by decide)).trans rfl⟩

section InvariantLemmas

lemma TurnCountInv_place {s : NoughtsAndCrosses} {row col : Fin 3}
    (h : TurnCountInv s) (he : s.board row col = Cell.empty) :
    TurnCountInv (place s row col) := by
  have hnext : (place s row col).next_player = flip_player s.next_player := rfl
  rcases h with ⟨hn, hd⟩ | ⟨hn, hd⟩
  · right
    refine ⟨by rw [hnext, hn]; rfl, ?_⟩
    have hsym : s.next_player.symbol = Cell.cross := by rw [hn]; rfl
    have h1 : countCell (place s row col) Cell.cross
        = countCell s Cell.cross + 1 := by
      rw [← hsym]
      exact countCell_place_symbol he
    have h2 : countCell (place s row col) Cell.nought
        = countCell s Cell.nought := by
      refine countCell_place_other he (by simp) ?_
      rw [hsym]
      simp
    unfold crossMinusNought at hd ⊢
    rw [h1, h2]
    push_cast
    omega
  · left
    refine ⟨by rw [hnext, hn]; rfl, ?_⟩
    have hsym : s.next_player.symbol = Cell.nought := by rw [hn]; rfl
    have h1 : countCell (place s row col) Cell.nought
        = countCell s Cell.nought + 1 := by
      rw [← hsym]
      exact countCell_place_symbol he
    have h2 : countCell (place s row col) Cell.cross
        = countCell s Cell.cross := by
      refine countCell_place_other he (by simp) ?_
      rw [hsym]
      simp
    unfold crossMinusNought at hd ⊢
    rw [h1, h2]
    push_cast
    omega

lemma reachable_TurnCountInv {s : NoughtsAndCrosses} (h : Reachable s) :
    TurnCountInv s := by
  induction h with
  | base => exact Or.inl ⟨rfl, by decide⟩
  | step hr he ih => exact TurnCountInv_place ih he

end InvariantLemmas

/-- C9 counterexample: the bare count invariant ("Cross count minus Nought
count is 0 or 1") is *not* preserved by every legal move on every board
satisfying it: an all-empty board with Nought to move satisfies it
(difference 0), the move (0,0) is legal, yet the resulting board has
difference -1. -/
theorem count_invariant_not_inductive_cex :
    crossMinusNought noughtFirstBoard = 0 ∧
    noughtFirstBoard.board 0 0 = Cell.empty ∧
    move noughtFirstBoard 0 0 = some (place noughtFirstBoard 0 0) ∧
    crossMinusNought (place noughtFirstBoard 0 0) = -1 ∧
    ¬(crossMinusNought (place noughtFirstBoard 0 0) = 0 ∨
      crossMinusNought (place noughtFirstBoard 0 0) = 1) := by
  decide

/-- C9 (amended): every board reachable from the initial board by legal
moves has Cross count minus Nought count equal to 0 or 1; the initial
board has difference 0 with Cross to move; and a legal move preserves the
*coupled* invariant (Cross to move with difference 0, or Nought to move
with difference 1), which is the invariant that actually carries the
induction. -/
theorem legal_move_count_invariant :
    (∀ s, Reachable s → crossMinusNought s = 0 ∨ crossMinusNought s = 1) ∧
    (crossMinusNought initial = 0 ∧ initial.next_player = Player.cross) ∧
    (∀ (s : NoughtsAndCrosses) (row col : Fin 3), TurnCountInv s →
      s.board row col = Cell.empty → TurnCountInv (place s row col)) := by
  refine ⟨?_, ⟨by decide, rfl⟩, fun s row col h he => TurnCountInv_place h he⟩
  intro s hs
  rcases reachable_TurnCountInv hs with ⟨-, hd⟩ | ⟨-, hd⟩
  · exact Or.inl hd
  · exact Or.inr hd

/-- C9 witness: the board after one legal move from the initial board is
reachable and satisfies the count invariant. -/
theorem legal_move_count_invariant_witness :
    crossMinusNought (place initial 0 0) = 0 ∨
    crossMinusNought (place initial 0 0) = 1 :=
  legal_move_count_invariant.1 (place initial 0 0)
    (Reachable.step Reachable.base (by decide))

section IndexLemmas

lemma npIdx_in_range {i : ℤ} (h1 : -3 ≤ i) (h2 : i ≤ 2) :
    ∃ f : Fin 3, npIdx i = some f ∧ (f : ℤ) = i % 3 := by
  unfold npIdx
  rcases le_or_lt 0 i with hi | hi
  · rw [dif_pos ⟨hi, by omega⟩]
    refine ⟨_, rfl, ?_⟩
    simp
    omega
  · rw [dif_neg (by omega), dif_pos ⟨h1, hi⟩]
    refine ⟨_, rfl, ?_⟩
    simp
    omega

lemma npIdx_out_of_range {i : ℤ} (h : i < -3 ∨ 2 < i) : npIdx i = none := by
  unfold npIdx
  rw [dif_neg (by omega), dif_neg (by omega)]

end IndexLemmas

/-- C10 counterexample: numpy accepts negative indices, so the out-of-range
call `is_empty(board, -1, -1)` returns a boolean (it reads cell (2,2) of
the empty board) instead of raising `IndexError`. -/
theorem valid_move_negative_index_cex :
    valid_move initial (-1) (-1) = some true ∧ ¬(0 ≤ (-1 : ℤ)) := by
  constructor
  · rfl
  · decide

/-- C10 (amended): for indices in `[0,2]×[0,2]` the call returns exactly
the emptiness of the addressed cell; indices in `[-3,-1]` do not raise but
wrap Python-style (`i` acts as `i + 3`, i.e. `i mod 3`), again returning a
boolean; `IndexError` is raised exactly when some index lies outside
`[-3, 2]`.  `zcell` reads the cell at the wrapped (mod 3) coordinates, and
agrees with direct indexing on `[0,2]`. -/
theorem valid_move_index_semantics (s : NoughtsAndCrosses) (row col : ℤ) :
    (-3 ≤ row → row ≤ 2 → -3 ≤ col → col ≤ 2 →
      valid_move s row col = some (decide (zcell s row col = Cell.empty))) ∧
    (row < -3 ∨ 2 < row ∨ col < -3 ∨ 2 < col → valid_move s row col = none) := by
  constructor
  · intro h1 h2 h3 h4
    obtain ⟨fr, hfr, hfrv⟩ := npIdx_in_range h1 h2
    obtain ⟨fc, hfc, hfcv⟩ := npIdx_in_range h3 h4
    unfold valid_move
    rw [hfr, hfc]
    have er : fr = ⟨(row % 3).toNat, by omega⟩ := by
      apply Fin.ext
      simp only [Fin.val]
      omega
    have ec : fc = ⟨(col % 3).toNat, by omega⟩ := by
      apply Fin.ext
      simp only [Fin.val]
      omega
    rw [er, ec]
    rfl
  · intro h
    unfold valid_move
    rcases h with h | h | h | h
    · rw [npIdx_out_of_range (Or.inl h)]
    · rw [npIdx_out_of_range (Or.inr h)]
    · rw [npIdx_out_of_range (Or.inl h)]
      cases npIdx row <;> rfl
    · rw [npIdx_out_of_range (Or.inr h)]
      cases npIdx row <;> rfl

/-- C10 witness: the in-range/wrapping clause applied at the index pair
(-1, 0) on the initial board. -/
theorem valid_move_index_semantics_witness :
    valid_move initial (-1) 0 = some (decide (zcell initial (-1) 0 = Cell.empty)) :=
  (valid_move_index_semantics initial (-1) 0).1 (by decide) (by decide)
    (by decide) (by decide)

section SearchStepLemmas

lemma abLoop_cons_min_cut {child : Fin 3 × Fin 3 → ℤ → ℤ → ℤ}
    {a : Fin 3 × Fin 3} {t : List (Fin 3 × Fin 3)} {α β best : ℤ}
    (h : child a α β ≤ α) :
    abLoop child true (a :: t) α β best = child a α β := by
  simp only [abLoop]
  simp [h]

lemma abLoop_cons_min {child : Fin 3 × Fin 3 → ℤ → ℤ → ℤ}
    {a : Fin 3 × Fin 3} {t : List (Fin 3 × Fin 3)} {α β best : ℤ}
    (h : ¬ child a α β ≤ α) :
    abLoop child true (a :: t) α β best
      = abLoop child true t α (min β (child a α β))
        (if child a α β < best then child a α β else best) := by
  simp only [abLoop]
  simp [h]

lemma abLoop_cons_max_cut {child : Fin 3 × Fin 3 → ℤ → ℤ → ℤ}
    {a : Fin 3 × Fin 3} {t : List (Fin 3 × Fin 3)} {α β best : ℤ}
    (h : β ≤ child a α β) :
    abLoop child false (a :: t) α β best = child a α β := by
  simp only [abLoop]
  simp [h]

lemma abLoop_cons_max {child : Fin 3 × Fin 3 → ℤ → ℤ → ℤ}
    {a : Fin 3 × Fin 3} {t : List (Fin 3 × Fin 3)} {α β best : ℤ}
    (h : ¬ β ≤ child a α β) :
    abLoop child false (a :: t) α β best
      = abLoop child false t (max α (child a α β)) β
        (if best < child a α β then child a α β else best) := by
  simp only [abLoop]
  simp [h]

lemma get_valueF_terminal {s : NoughtsAndCrosses} {p : Player} {v : ℤ}
    (h : score s p = some v) (fuel : ℕ) (gm : Bool) (α β : ℤ) :
    get_valueF fuel s p gm α β = v := by
  cases fuel <;> simp only [get_valueF, h]

lemma get_valueF_step_min {s : NoughtsAndCrosses} {p : Player}
    (h : score s p = none) (fuel : ℕ) (α β : ℤ) :
    get_valueF (fuel + 1) s p true α β
      = abLoop (fun a α' β' => get_valueF fuel (place s a.1 a.2) p false α' β')
          true (actions s) α β 2 := by
  simp only [get_valueF, h]
  simp

lemma get_valueF_step_max {s : NoughtsAndCrosses} {p : Player}
    (h : score s p = none) (fuel : ℕ) (α β : ℤ) :
    get_valueF (fuel + 1) s p false α β
      = abLoop (fun a α' β' => get_valueF fuel (place s a.1 a.2) p true α' β')
          false (actions s) α β (-2) := by
  simp only [get_valueF, h]
  simp

lemma minimaxF_terminal {s : NoughtsAndCrosses} {p : Player} {v : ℤ}
    (h : score s p = some v) (fuel : ℕ) (gm : Bool) :
    minimaxF fuel s p gm = v := by
  cases fuel <;> simp only [minimaxF, h]

lemma minimaxF_step_min {s : NoughtsAndCrosses} {p : Player}
    (h : score s p = none) (fuel : ℕ) :
    minimaxF (fuel + 1) s p true
      = ((actions s).map fun a => minimaxF fuel (place s a.1 a.2) p false).foldl
          min 2 := by
  simp only [minimaxF, h]
  simp

lemma minimaxF_step_max {s : NoughtsAndCrosses} {p : Player}
    (h : score s p = none) (fuel : ℕ) :
    minimaxF (fuel + 1) s p false
      = ((actions s).map fun a => minimaxF fuel (place s a.1 a.2) p true).foldl
          max (-2) := by
  simp only [minimaxF, h]
  simp

end SearchStepLemmas

section BoundsLemmas

lemma abLoop_bounds (child : Fin 3 × Fin 3 → ℤ → ℤ → ℤ) (gm : Bool) :
    ∀ (l : List (Fin 3 × Fin 3)) (α β best : ℤ),
      (∀ a ∈ l, ∀ α' β', -1 ≤ child a α' β' ∧ child a α' β' ≤ 1) →
      ((-1 ≤ best ∧ best ≤ 1) ∨ (l ≠ [] ∧ best = if gm then 2 else -2)) →
      -1 ≤ abLoop child gm l α β best ∧ abLoop child gm l α β best ≤ 1 := by
  intro l
  induction l with
  | nil =>
    intro α β best hch hinit
    rcases hinit with h | ⟨hne, -⟩
    · exact h
    · exact absurd rfl hne
  | cons a t ih =>
    intro α β best hch hinit
    have hav := hch a (List.mem_cons_self a t) α β
    have hbest' : (-1 ≤ (if child a α β < best then child a α β else best) ∧
        (if child a α β < best then child a α β else best) ≤ 1) ∨
        gm = false := by
      cases gm with
      | false => exact Or.inr rfl
      | true =>
        left
        rcases hinit with ⟨h1, h2⟩ | ⟨-, hb⟩
        · split_ifs <;> omega
        · simp at hb
          rw [hb]
          rw [if_pos (by omega)]
          exact hav
    have hbest2 : (-1 ≤ (if best < child a α β then child a α β else best) ∧
        (if best < child a α β then child a α β else best) ≤ 1) ∨
        gm = true := by
      cases gm with
      | true => exact Or.inr rfl
      | false =>
        left
        rcases hinit with ⟨h1, h2⟩ | ⟨-, hb⟩
        · split_ifs <;> omega
        · simp at hb
          rw [hb]
          rw [if_pos (by omega)]
          exact hav
    cases gm with
    | true =>
      by_cases hcut : child a α β ≤ α
      · rw [abLoop_cons_min_cut hcut]
        exact hav
      · rw [abLoop_cons_min hcut]
        apply ih
        · intro x hx
          exact hch x (List.mem_cons_of_mem a hx)
        · rcases hbest' with h | h
          · exact Or.inl h
          · cases h
    | false =>
      by_cases hcut : β ≤ child a α β
      · rw [abLoop_cons_max_cut hcut]
        exact hav
      · rw [abLoop_cons_max hcut]
        apply ih
        · intro x hx
          exact hch x (List.mem_cons_of_mem a hx)
        · rcases hbest2 with h | h
          · exact Or.inl h
          · cases h

lemma get_valueF_bounds :
    ∀ (fuel : ℕ) (s : NoughtsAndCrosses) (p : Player) (gm : Bool) (α β : ℤ),
      emptyCells s ≤ fuel →
      -1 ≤ get_valueF fuel s p gm α β ∧ get_valueF fuel s p gm α β ≤ 1 := by
  intro fuel
  induction fuel with
  | zero =>
    intro s p gm α β hf
    rcases hsc : score s p with _ | v
    · have := score_none_empty_pos hsc
      omega
    · rw [get_valueF_terminal hsc]
      exact score_bounds hsc
  | succ f ih =>
    intro s p gm α β hf
    rcases hsc : score s p with _ | v
    · have hch : ∀ a ∈ actions s, ∀ α' β',
          -1 ≤ get_valueF f (place s a.1 a.2) p (!gm) α' β' ∧
          get_valueF f (place s a.1 a.2) p (!gm) α' β' ≤ 1 := by
        intro a ha α' β'
        have he : s.board a.1 a.2 = Cell.empty := mem_actions.mp ha
        have := emptyCells_place he
        exact ih (place s a.1 a.2) p (!gm) α' β' (by omega)
      cases gm with
      | true =>
        rw [get_valueF_step_min hsc]
        exact abLoop_bounds _ true (actions s) α β 2 hch
          (Or.inr ⟨score_none_actions_ne hsc, rfl⟩)
      | false =>
        rw [get_valueF_step_max hsc]
        exact abLoop_bounds _ false (actions s) α β (-2) hch
          (Or.inr ⟨score_none_actions_ne hsc, rfl⟩)
    · rw [get_valueF_terminal hsc]
      exact score_bounds hsc

end BoundsLemmas

section AlphaBetaCorrect

/-- Invariant-carrying correctness of the maximizing alpha-beta loop.
`child a α' β` is a fail-soft evaluation of child `a` in window `(α', β)`
and `f_v a` its true value; the loop runs with current alpha
`max α₀ best` (alpha is exactly the original alpha joined with the best
value seen so far), `best` the running best, and `vdone` the true maximum
over the moves already processed. -/
lemma abLoopMax_spec (child : Fin 3 × Fin 3 → ℤ → ℤ → ℤ)
    (f_v : Fin 3 × Fin 3 → ℤ) (α₀ β : ℤ) :
    ∀ (l : List (Fin 3 × Fin 3)) (best vdone : ℤ),
      (∀ a ∈ l, ∀ α, -2 ≤ α → α < β →
        ((-1 ≤ child a α β ∧ child a α β ≤ 1) ∧
          (child a α β ≤ α → f_v a ≤ child a α β) ∧
          (β ≤ child a α β → child a α β ≤ f_v a) ∧
          (α < child a α β → child a α β < β → child a α β = f_v a))) →
      -2 ≤ α₀ → α₀ < β → -2 ≤ best → best < β →
      vdone ≤ best → (α₀ < best → best ≤ vdone) →
      ((abLoop child false l (max α₀ best) β best ≤ α₀ →
          (l.map f_v).foldl max vdone ≤ abLoop child false l (max α₀ best) β best) ∧
        (β ≤ abLoop child false l (max α₀ best) β best →
          abLoop child false l (max α₀ best) β best ≤ (l.map f_v).foldl max vdone) ∧
        (α₀ < abLoop child false l (max α₀ best) β best →
          abLoop child false l (max α₀ best) β best < β →
          abLoop child false l (max α₀ best) β best = (l.map f_v).foldl max vdone)) := by
  intro l
  induction l with
  | nil =>
    intro best vdone hch hα₀ hαβ hb2 hbβ hc hd
    simp only [abLoop, List.map_nil, List.foldl_nil]
    exact ⟨fun _ => hc, fun hβ' => absurd hβ' (by omega),
      fun h1 _ => le_antisymm (hd h1) hc⟩
  | cons a t ih =>
    intro best vdone hch hα₀ hαβ hb2 hbβ hc hd
    have hmem : a ∈ a :: t := List.mem_cons_self a t
    have hαcur : -2 ≤ max α₀ best := le_trans hα₀ (le_max_left _ _)
    have hαcurβ : max α₀ best < β := max_lt hαβ hbβ
    obtain ⟨⟨hb1', hb2'⟩, hlow, hhigh, hexact⟩ := hch a hmem (max α₀ best) hαcur hαcurβ
    by_cases hcut : β ≤ child a (max α₀ best) β
    · rw [abLoop_cons_max_cut hcut]
      refine ⟨fun hle => ?_, fun _ => ?_, fun _ hlt => ?_⟩
      · omega
      · have h1 : child a (max α₀ best) β ≤ f_v a := hhigh hcut
        have h2 : f_v a ≤ ((a :: t).map f_v).foldl max vdone :=
          mem_le_foldl_max _ vdone (f_v a) (List.mem_map_of_mem f_v hmem)
        omega
      · omega
    · rw [abLoop_cons_max hcut]
      have havβ : child a (max α₀ best) β < β := by omega
      have hbest : (if best < child a (max α₀ best) β
          then child a (max α₀ best) β else best)
          = max best (child a (max α₀ best) β) := by
        rcases le_or_lt (child a (max α₀ best) β) best with h | h
        · rw [if_neg (not_lt.mpr h)]
          exact (max_eq_left h).symm
        · rw [if_pos h]
          exact (max_eq_right (le_of_lt h)).symm
      rw [hbest, max_assoc]
      have hfold : ((a :: t).map f_v).foldl max vdone
          = (t.map f_v).foldl max (max vdone (f_v a)) := by
        simp
      rw [hfold]
      have hfva : f_v a ≤ child a (max α₀ best) β := by
        rcases le_or_lt (child a (max α₀ best) β) (max α₀ best) with h | h
        · exact hlow h
        · exact le_of_eq (hexact h havβ).symm
      apply ih (max best (child a (max α₀ best) β)) (max vdone (f_v a))
      · intro x hx α h1 h2
        exact hch x (List.mem_cons_of_mem a hx) α h1 h2
      · exact hα₀
      · exact hαβ
      · exact le_trans hb2 (le_max_left _ _)
      · exact max_lt hbβ havβ
      · exact max_le_max hc hfva
      · intro h
        rcases le_or_lt (child a (max α₀ best) β) best with h1 | h1
        · rw [max_eq_left h1] at h ⊢
          exact le_trans (hd h) (le_max_left _ _)
        · rw [max_eq_right (le_of_lt h1)] at h ⊢
          rcases le_or_lt (child a (max α₀ best) β) (max α₀ best) with h2 | h2
          · rcases le_max_iff.mp h2 with h3 | h3 <;> omega
          · exact le_trans (le_of_eq (hexact h2 havβ)) (le_max_right _ _)

/-- Invariant-carrying correctness of the minimizing alpha-beta loop,
the mirror image of `abLoopMax_spec`: the current beta is exactly
`min β₀ best` and `vdone` is the true minimum over the processed moves. -/
lemma abLoopMin_spec (child : Fin 3 × Fin 3 → ℤ → ℤ → ℤ)
    (f_v : Fin 3 × Fin 3 → ℤ) (β₀ α : ℤ) :
    ∀ (l : List (Fin 3 × Fin 3)) (best vdone : ℤ),
      (∀ a ∈ l, ∀ β, β ≤ 2 → α < β →
        ((-1 ≤ child a α β ∧ child a α β ≤ 1) ∧
          (child a α β ≤ α → f_v a ≤ child a α β) ∧
          (β ≤ child a α β → child a α β ≤ f_v a) ∧
          (α < child a α β → child a α β < β → child a α β = f_v a))) →
      β₀ ≤ 2 → α < β₀ → best ≤ 2 → α < best →
      best ≤ vdone → (best < β₀ → vdone ≤ best) →
      ((abLoop child true l α (min β₀ best) best ≤ α →
          (l.map f_v).foldl min vdone ≤ abLoop child true l α (min β₀ best) best) ∧
        (β₀ ≤ abLoop child true l α (min β₀ best) best →
          abLoop child true l α (min β₀ best) best ≤ (l.map f_v).foldl min vdone) ∧
        (α < abLoop child true l α (min β₀ best) best →
          abLoop child true l α (min β₀ best) best < β₀ →
          abLoop child true l α (min β₀ best) best = (l.map f_v).foldl min vdone)) := by
  intro l
  induction l with
  | nil =>
    intro best vdone hch hβ₀2 hαβ₀ hb2 hαb hc hd
    simp only [abLoop, List.map_nil, List.foldl_nil]
    exact ⟨fun hle => absurd hle (by omega), fun _ => hc,
      fun _ h2 => le_antisymm hc (hd h2)⟩
  | cons a t ih =>
    intro best vdone hch hβ₀2 hαβ₀ hb2 hαb hc hd
    have hmem : a ∈ a :: t := List.mem_cons_self a t
    have hβcur : min β₀ best ≤ 2 := le_trans (min_le_left _ _) hβ₀2
    have hαβcur : α < min β₀ best := lt_min hαβ₀ hαb
    obtain ⟨⟨hb1', hb2'⟩, hlow, hhigh, hexact⟩ := hch a hmem (min β₀ best) hβcur hαβcur
    by_cases hcut : child a α (min β₀ best) ≤ α
    · rw [abLoop_cons_min_cut hcut]
      refine ⟨fun _ => ?_, fun hge => ?_, fun hlt _ => ?_⟩
      · have h1 : f_v a ≤ child a α (min β₀ best) := hlow hcut
        have h2 : ((a :: t).map f_v).foldl min vdone ≤ f_v a :=
          foldl_min_le_mem _ vdone (f_v a) (List.mem_map_of_mem f_v hmem)
        omega
      · omega
      · omega
    · rw [abLoop_cons_min hcut]
      have havα : α < child a α (min β₀ best) := by omega
      have hbest : (if child a α (min β₀ best) < best
          then child a α (min β₀ best) else best)
          = min best (child a α (min β₀ best)) := by
        rcases le_or_lt best (child a α (min β₀ best)) with h | h
        · rw [if_neg (not_lt.mpr h)]
          exact (min_eq_left h).symm
        · rw [if_pos h]
          exact (min_eq_right (le_of_lt h)).symm
      rw [hbest, min_assoc]
      have hfold : ((a :: t).map f_v).foldl min vdone
          = (t.map f_v).foldl min (min vdone (f_v a)) := by
        simp
      rw [hfold]
      have hfva : child a α (min β₀ best) ≤ f_v a := by
        rcases le_or_lt (min β₀ best) (child a α (min β₀ best)) with h | h
        · exact hhigh h
        · exact le_of_eq (hexact havα h)
      apply ih (min best (child a α (min β₀ best))) (min vdone (f_v a))
      · intro x hx β h1 h2
        exact hch x (List.mem_cons_of_mem a hx) β h1 h2
      · exact hβ₀2
      · exact hαβ₀
      · exact le_trans (min_le_left _ _) hb2
      · exact lt_min hαb havα
      · exact min_le_min hc hfva
      · intro h
        rcases le_or_lt best (child a α (min β₀ best)) with h1 | h1
        · rw [min_eq_left h1] at h ⊢
          exact le_trans (min_le_left _ _) (hd h)
        · rw [min_eq_right (le_of_lt h1)] at h ⊢
          rcases le_or_lt (min β₀ best) (child a α (min β₀ best)) with h2 | h2
          · rcases min_le_iff.mp h2 with h3 | h3 <;> omega
          · exact le_trans (min_le_right _ _) (le_of_eq (hexact havα h2).symm)

/-- Knuth–Moore style fail-soft correctness of `get_valueF` against the
exhaustive minimax value, for any window `-2 ≤ α < β ≤ 2` and any fuel at
least the number of empty cells: a result inside the window is exact, a
fail-low result upper-bounds the true value, and a fail-high result
lower-bounds it. -/
lemma ab_correct :
    ∀ (fuel : ℕ) (s : NoughtsAndCrosses) (p : Player) (gm : Bool) (α β : ℤ),
      emptyCells s ≤ fuel → -2 ≤ α → α < β → β ≤ 2 →
      ((get_valueF fuel s p gm α β ≤ α →
          minimaxF fuel s p gm ≤ get_valueF fuel s p gm α β) ∧
        (β ≤ get_valueF fuel s p gm α β →
          get_valueF fuel s p gm α β ≤ minimaxF fuel s p gm) ∧
        (α < get_valueF fuel s p gm α β → get_valueF fuel s p gm α β < β →
          get_valueF fuel s p gm α β = minimaxF fuel s p gm)) := by
  intro fuel
  induction fuel with
  | zero =>
    intro s p gm α β hf hα hαβ hβ
    rcases hsc : score s p with _ | v
    · have := score_none_empty_pos hsc
      omega
    · rw [get_valueF_terminal hsc, minimaxF_terminal hsc]
      exact ⟨fun _ => le_rfl, fun _ => le_rfl, fun _ _ => rfl⟩
  | succ f ih =>
    intro s p gm α β hf hα hαβ hβ
    rcases hsc : score s p with _ | v
    · have hch : ∀ a ∈ actions s, ∀ α' β', -2 ≤ α' → α' < β' → β' ≤ 2 →
          ((-1 ≤ get_valueF f (place s a.1 a.2) p (!gm) α' β' ∧
              get_valueF f (place s a.1 a.2) p (!gm) α' β' ≤ 1) ∧
            (get_valueF f (place s a.1 a.2) p (!gm) α' β' ≤ α' →
              minimaxF f (place s a.1 a.2) p (!gm) ≤
                get_valueF f (place s a.1 a.2) p (!gm) α' β') ∧
            (β' ≤ get_valueF f (place s a.1 a.2) p (!gm) α' β' →
              get_valueF f (place s a.1 a.2) p (!gm) α' β' ≤
                minimaxF f (place s a.1 a.2) p (!gm)) ∧
            (α' < get_valueF f (place s a.1 a.2) p (!gm) α' β' →
              get_valueF f (place s a.1 a.2) p (!gm) α' β' < β' →
              get_valueF f (place s a.1 a.2) p (!gm) α' β' =
                minimaxF f (place s a.1 a.2) p (!gm))) := by
        intro a ha α' β' h1 h2 h3
        have he : s.board a.1 a.2 = Cell.empty := mem_actions.mp ha
        have hfe : emptyCells (place s a.1 a.2) ≤ f := by
          have := emptyCells_place he
          omega
        exact ⟨get_valueF_bounds f _ p (!gm) α' β' hfe,
          (ih _ p (!gm) α' β' hfe h1 h2 h3).1,
          (ih _ p (!gm) α' β' hfe h1 h2 h3).2.1,
          (ih _ p (!gm) α' β' hfe h1 h2 h3).2.2⟩
      cases gm with
      | false =>
        rw [get_valueF_step_max hsc, minimaxF_step_max hsc]
        have h := abLoopMax_spec
          (fun a α' β' => get_valueF f (place s a.1 a.2) p true α' β')
          (fun a => minimaxF f (place s a.1 a.2) p true) α β
          (actions s) (-2) (-2)
          (fun a ha α' hk1 hk2 => hch a ha α' β hk1 hk2 hβ)
          hα hαβ (by omega) (by omega) le_rfl (by omega)
        rw [max_eq_left hα] at h
        exact h
      | true =>
        rw [get_valueF_step_min hsc, minimaxF_step_min hsc]
        have h := abLoopMin_spec
          (fun a α' β' => get_valueF f (place s a.1 a.2) p false α' β')
          (fun a => minimaxF f (place s a.1 a.2) p false) β α
          (actions s) 2 2
          (fun a ha β' hk1 hk2 => hch a ha α β' hα hk2 hk1)
          hβ hαβ le_rfl (by omega) le_rfl (by omega)
        rw [min_eq_left hβ] at h
        exact h
    · rw [get_valueF_terminal hsc, minimaxF_terminal hsc]
      exact ⟨fun _ => le_rfl, fun _ => le_rfl, fun _ _ => rfl⟩

end AlphaBetaCorrect

section RootLoopLemmas

lemma bestLoop_cons_gt {f : Fin 3 × Fin 3 → ℤ} {a : Fin 3 × Fin 3}
    {t ba : List (Fin 3 × Fin 3)} {bv : ℤ} (h : bv < f a) :
    bestLoop f (a :: t) ba bv = bestLoop f t [a, a] (f a) := by
  simp only [bestLoop]
  simp [h]

lemma bestLoop_cons_eq {f : Fin 3 × Fin 3 → ℤ} {a : Fin 3 × Fin 3}
    {t ba : List (Fin 3 × Fin 3)} {bv : ℤ} (h1 : ¬ bv < f a) (h2 : f a = bv) :
    bestLoop f (a :: t) ba bv = bestLoop f t (ba ++ [a]) bv := by
  simp only [bestLoop]
  simp [h1, h2]

lemma bestLoop_cons_lt {f : Fin 3 × Fin 3 → ℤ} {a : Fin 3 × Fin 3}
    {t ba : List (Fin 3 × Fin 3)} {bv : ℤ} (h1 : ¬ bv < f a) (h2 : f a ≠ bv) :
    bestLoop f (a :: t) ba bv = bestLoop f t ba bv := by
  simp only [bestLoop]
  simp [h1, h2]

/-- What the root loop of `next_move` computes: the final best value is the
maximum of the initial value and all move values, every collected
candidate is a move (or initial entry) achieving that value, and the
candidate list can only stay empty if every move scored strictly below
the initial value. -/
lemma bestLoop_spec (f : Fin 3 × Fin 3 → ℤ) :
    ∀ (l ba : List (Fin 3 × Fin 3)) (bv : ℤ), (∀ x ∈ ba, f x = bv) →
      (bestLoop f l ba bv).2 = (l.map f).foldl max bv ∧
      (∀ x ∈ (bestLoop f l ba bv).1,
        f x = (bestLoop f l ba bv).2 ∧ (x ∈ ba ∨ x ∈ l)) ∧
      ((bestLoop f l ba bv).1 = [] → ba = [] ∧ ∀ a ∈ l, f a < bv) := by
  intro l
  induction l with
  | nil =>
    intro ba bv hba
    refine ⟨rfl, ?_, ?_⟩
    · intro x hx
      exact ⟨hba x hx, Or.inl hx⟩
    · intro h
      exact ⟨h, fun a ha => absurd ha (List.not_mem_nil a)⟩
  | cons a t ih =>
    intro ba bv hba
    by_cases hgt : bv < f a
    · rw [bestLoop_cons_gt hgt]
      have hba' : ∀ x ∈ [a, a], f x = f a := by
        intro x hx
        rcases List.mem_cons.mp hx with h | h
        · rw [h]
        · rcases List.mem_cons.mp h with h' | h'
          · rw [h']
          · cases h'
      obtain ⟨hv, hm, he⟩ := ih [a, a] (f a) hba'
      have hmax : max bv (f a) = f a := max_eq_right (le_of_lt hgt)
      refine ⟨?_, ?_, ?_⟩
      · rw [hv]
        simp [hmax]
      · intro x hx
        obtain ⟨h1, h2⟩ := hm x hx
        refine ⟨h1, ?_⟩
        rcases h2 with h | h
        · have hxa : x = a := by
            rcases List.mem_cons.mp h with h' | h'
            · exact h'
            · rcases List.mem_cons.mp h' with h'' | h''
              · exact h''
              · cases h''
          exact Or.inr (hxa ▸ List.mem_cons_self a t)
        · exact Or.inr (List.mem_cons_of_mem a h)
      · intro hnull
        obtain ⟨habs, -⟩ := he hnull
        cases habs
    · by_cases heq : f a = bv
      · rw [bestLoop_cons_eq hgt heq]
        have hba' : ∀ x ∈ ba ++ [a], f x = bv := by
          intro x hx
          rcases List.mem_append.mp hx with h | h
          · exact hba x h
          · rcases List.mem_cons.mp h with h' | h'
            · rw [h']
              exact heq
            · cases h'
        obtain ⟨hv, hm, he⟩ := ih (ba ++ [a]) bv hba'
        have hmax : max bv (f a) = bv := max_eq_left (le_of_not_lt (heq ▸ hgt))
        refine ⟨?_, ?_, ?_⟩
        · rw [hv]
          simp [hmax]
        · intro x hx
          obtain ⟨h1, h2⟩ := hm x hx
          refine ⟨h1, ?_⟩
          rcases h2 with h | h
          · rcases List.mem_append.mp h with h' | h'
            · exact Or.inl h'
            · rcases List.mem_cons.mp h' with h'' | h''
              · exact Or.inr (h'' ▸ List.mem_cons_self a t)
              · cases h''
          · exact Or.inr (List.mem_cons_of_mem a h)
        · intro hnull
          obtain ⟨habs, -⟩ := he hnull
          rcases List.append_eq_nil.mp habs with ⟨-, habs'⟩
          cases habs'
      · rw [bestLoop_cons_lt hgt heq]
        obtain ⟨hv, hm, he⟩ := ih ba bv hba
        have hlt : f a < bv := lt_of_le_of_ne (le_of_not_lt hgt) heq
        have hmax : max bv (f a) = bv := max_eq_left (le_of_lt hlt)
        refine ⟨?_, ?_, ?_⟩
        · rw [hv]
          simp [hmax]
        · intro x hx
          obtain ⟨h1, h2⟩ := hm x hx
          exact ⟨h1, h2.imp id (List.mem_cons_of_mem a)⟩
        · intro hnull
          obtain ⟨h1, h2⟩ := he hnull
          refine ⟨h1, ?_⟩
          intro x hx
          rcases List.mem_cons.mp hx with h | h
          · rw [h]
            exact hlt
          · exact h2 x h

end RootLoopLemmas

/-- Full-window alpha-beta equals exhaustive minimax, via the fail-soft
correctness lemma and the value bounds: every value is in `[-1, 1]`, hence
strictly inside the window `(-2, 2)`. -/
lemma get_value_full_window_eq (s : NoughtsAndCrosses) (p : Player) (gm : Bool) :
    get_valueF 9 s p gm (-2) 2 = minimaxF 9 s p gm := by
  have hb := get_valueF_bounds 9 s p gm (-2) 2 (emptyCells_le_nine s)
  exact (ab_correct 9 s p gm (-2) 2 (emptyCells_le_nine s) le_rfl (by omega)
    le_rfl).2.2 (by omega) (by omega)

/-- C2: for every board (in particular every reachable one), the
alpha-beta pruned `get_value` called with the full window — exactly as
`next_move` calls it for each root child — returns the same value as
exhaustive unpruned minimax over the same game tree; hence pruned and
unpruned search assign identical values to every legal root move. -/
theorem pruned_value_eq_unpruned_value (s : NoughtsAndCrosses) (player : Player)
    (get_min : Bool) :
    get_value s player get_min (-2) 2 = minimax s player get_min :=
  get_value_full_window_eq s player get_min

/-- C1: on a board still in progress (so with at least one legal move),
the candidate list built by `next_move` for `random.choice` is non-empty
and consists only of legal moves whose game-theoretic minimax value, from
the fixed perspective of the player to move at the root, is maximal among
all legal moves.  Whatever element the random choice returns is therefore
a legal move of maximal value. -/
theorem next_move_returns_optimal_move (s : NoughtsAndCrosses)
    (hprog : winner s = WinRes.inProgress) (hne : actions s ≠ []) :
    nextMoveCandidates s ≠ [] ∧
    ∀ m ∈ nextMoveCandidates s, m ∈ actions s ∧
      ∀ a ∈ actions s, minimax (place s a.1 a.2) s.next_player true ≤
        minimax (place s m.1 m.2) s.next_player true := by
  obtain ⟨hval, hmem, hemp⟩ := bestLoop_spec
    (fun a => get_value (place s a.1 a.2) s.next_player true (-2) 2)
    (actions s) [] (-2) (fun x hx => absurd hx (List.not_mem_nil x))
  have hdef : nextMoveCandidates s = (bestLoop
      (fun a => get_value (place s a.1 a.2) s.next_player true (-2) 2)
      (actions s) [] (-2)).1 := rfl
  constructor
  · intro hnull
    obtain ⟨a, ha⟩ := List.exists_mem_of_ne_nil _ hne
    have hlt := (hemp (hdef ▸ hnull)).2 a ha
    have hb1 : -1 ≤ get_value (place s a.1 a.2) s.next_player true (-2) 2 :=
      (get_valueF_bounds 9 (place s a.1 a.2) s.next_player true (-2) 2
        (emptyCells_le_nine _)).1
    omega
  · intro m hm
    obtain ⟨h1, h2⟩ := hmem m (hdef ▸ hm)
    have hma : m ∈ actions s := by
      rcases h2 with h | h
      · cases h
      · exact h
    refine ⟨hma, ?_⟩
    intro a ha
    have hle : get_value (place s a.1 a.2) s.next_player true (-2) 2 ≤
        ((actions s).map
          (fun a => get_value (place s a.1 a.2) s.next_player true (-2) 2)).foldl
          max (-2) :=
      mem_le_foldl_max _ _ _ (List.mem_map_of_mem _ ha)
    rw [← hval, ← h1] at hle
    have hle' : get_valueF 9 (place s a.1 a.2) s.next_player true (-2) 2 ≤
        get_valueF 9 (place s m.1 m.2) s.next_player true (-2) 2 := hle
    rw [get_value_full_window_eq, get_value_full_window_eq] at hle'
    exact hle'

/-- C1 witness: on the in-progress board `tieBoard`, `next_move` collects
a non-empty candidate list. -/
theorem next_move_returns_optimal_move_witness :
    nextMoveCandidates tieBoard ≠ [] :=
  (next_move_returns_optimal_move tieBoard (by decide) (by decide)).1

/-- C3: on `tieBoard` the two legal moves (1,1) and (1,2) both achieve the
maximal value -1, yet the candidate list handed to `random.choice` is
[(1,1), (1,1), (1,2)] — the move that first set the running best is
appended twice (the source uses two independent `if` statements instead
of `if`/`elif`), so the tied optimal moves are chosen with probabilities
2/3 and 1/3, not uniformly, and the list does not contain each
maximum-value move exactly once. -/
theorem tie_break_candidates_duplicated :
    (∀ m ∈ actions tieBoard,
      get_value (place tieBoard m.1 m.2) tieBoard.next_player true (-2) 2 = -1) ∧
    actions tieBoard = [(1, 1), (1, 2)] ∧
    nextMoveCandidates tieBoard = [(1, 1), (1, 1), (1, 2)] := by
  decide

/-- C4 counterexample: on a board already won by Cross (outcome is not
InProgress) that still has empty cells, `next_move` does not fail at all —
it returns a legal move — so it does not raise a `PreconditionError`. -/
theorem next_move_terminal_board_returns_move :
    winner wonBoard ≠ WinRes.inProgress ∧
    next_move wonBoard = some (1, 2) ∧ (1, 2) ∈ actions wonBoard := by
  decide

/-- C4 (amended): `next_move` performs no precondition check.  It fails
exactly when the board has no empty cell — and then with the `IndexError`
of `random.choice` on the empty candidate list, not a `PreconditionError`
— and on every board with at least one empty cell (terminal or not) it
returns a legal move. -/
theorem next_move_failure_iff_no_moves (s : NoughtsAndCrosses) :
    (next_move s = none ↔ actions s = []) ∧
    (∀ m, next_move s = some m → m ∈ actions s) := by
  obtain ⟨hval, hmem, hemp⟩ := bestLoop_spec
    (fun a => get_value (place s a.1 a.2) s.next_player true (-2) 2)
    (actions s) [] (-2) (fun x hx => absurd hx (List.not_mem_nil x))
  have hdef : nextMoveCandidates s = (bestLoop
      (fun a => get_value (place s a.1 a.2) s.next_player true (-2) 2)
      (actions s) [] (-2)).1 := rfl
  constructor
  · constructor
    · intro hn
      have hcand : nextMoveCandidates s = [] := by
        unfold next_move at hn
        exact List.head?_eq_none_iff.mp hn
      by_contra hne
      obtain ⟨a, ha⟩ := List.exists_mem_of_ne_nil _ hne
      have hlt := (hemp (hdef ▸ hcand)).2 a ha
      have hb1 : -1 ≤ get_value (place s a.1 a.2) s.next_player true (-2) 2 :=
        (get_valueF_bounds 9 (place s a.1 a.2) s.next_player true (-2) 2
          (emptyCells_le_nine _)).1
      omega
    · intro ha
      unfold next_move
      rw [hdef, ha]
      rfl
  · intro m hm
    have hmm : m ∈ nextMoveCandidates s := by
      unfold next_move at hm
      exact List.mem_of_mem_head? hm
    rcases (hmem m (hdef ▸ hmm)).2 with h | h
    · cases h
    · exact h

/-- C4 witness: on the won-but-not-full board, the returned move is legal. -/
theorem next_move_failure_iff_no_moves_witness :
    ((1 : Fin 3), (2 : Fin 3)) ∈ actions wonBoard :=
  (next_move_failure_iff_no_moves wonBoard).2 (1, 2) (by decide)

section FuelIrrelevance

lemma abLoop_congr {c₁ c₂ : Fin 3 × Fin 3 → ℤ → ℤ → ℤ} (gm : Bool) :
    ∀ (l : List (Fin 3 × Fin 3)) (α β best : ℤ),
      (∀ a ∈ l, ∀ α' β', c₁ a α' β' = c₂ a α' β') →
      abLoop c₁ gm l α β best = abLoop c₂ gm l α β best := by
  intro l
  induction l with
  | nil =>
    intro α β best h
    rfl
  | cons a t ih =>
    intro α β best h
    have ha := h a (List.mem_cons_self a t)
    have htail : ∀ x ∈ t, ∀ α' β', c₁ x α' β' = c₂ x α' β' :=
      fun x hx => h x (List.mem_cons_of_mem a hx)
    cases gm with
    | true =>
      by_cases hcut : c₁ a α β ≤ α
      · have hcut2 : c₂ a α β ≤ α := (ha α β) ▸ hcut
        rw [abLoop_cons_min_cut hcut, abLoop_cons_min_cut hcut2]
        exact ha α β
      · have hcut2 : ¬ c₂ a α β ≤ α := fun hc => hcut ((ha α β).symm ▸ hc)
        rw [abLoop_cons_min hcut, abLoop_cons_min hcut2, ha α β]
        exact ih _ _ _ htail
    | false =>
      by_cases hcut : β ≤ c₁ a α β
      · have hcut2 : β ≤ c₂ a α β := (ha α β) ▸ hcut
        rw [abLoop_cons_max_cut hcut, abLoop_cons_max_cut hcut2]
        exact ha α β
      · have hcut2 : ¬ β ≤ c₂ a α β := fun hc => hcut ((ha α β).symm ▸ hc)
        rw [abLoop_cons_max hcut, abLoop_cons_max hcut2, ha α β]
        exact ih _ _ _ htail

/-- The fuel argument is irrelevant once it covers the number of empty
cells: `get_valueF` computes the same value for any two sufficient fuels,
so `get_value` (fuel 9) is *the* value of the source's unbounded
recursion. -/
lemma get_valueF_irrel :
    ∀ (f₁ f₂ : ℕ) (s : NoughtsAndCrosses) (p : Player) (gm : Bool) (α β : ℤ),
      emptyCells s ≤ f₁ → emptyCells s ≤ f₂ →
      get_valueF f₁ s p gm α β = get_valueF f₂ s p gm α β := by
  intro f₁
  induction f₁ with
  | zero =>
    intro f₂ s p gm α β h1 h2
    rcases hsc : score s p with _ | v
    · have := score_none_empty_pos hsc
      omega
    · rw [get_valueF_terminal hsc, get_valueF_terminal hsc]
  | succ g ih =>
    intro f₂ s p gm α β h1 h2
    rcases hsc : score s p with _ | v
    · cases f₂ with
      | zero =>
        have := score_none_empty_pos hsc
        omega
      | succ g₂ =>
        have hch : ∀ a ∈ actions s, ∀ α' β',
            get_valueF g (place s a.1 a.2) p (!gm) α' β'
              = get_valueF g₂ (place s a.1 a.2) p (!gm) α' β' := by
          intro a ha α' β'
          have he := mem_actions.mp ha
          have := emptyCells_place he
          exact ih g₂ (place s a.1 a.2) p (!gm) α' β' (by omega) (by omega)
        cases gm with
        | true =>
          rw [get_valueF_step_min hsc, get_valueF_step_min hsc]
          exact abLoop_congr true (actions s) α β 2 hch
        | false =>
          rw [get_valueF_step_max hsc, get_valueF_step_max hsc]
          exact abLoop_congr false (actions s) α β (-2) hch
    · rw [get_valueF_terminal hsc, get_valueF_terminal hsc]

/-- Fuel irrelevance for the exhaustive minimax reference. -/
lemma minimaxF_irrel :
    ∀ (f₁ f₂ : ℕ) (s : NoughtsAndCrosses) (p : Player) (gm : Bool),
      emptyCells s ≤ f₁ → emptyCells s ≤ f₂ →
      minimaxF f₁ s p gm = minimaxF f₂ s p gm := by
  intro f₁
  induction f₁ with
  | zero =>
    intro f₂ s p gm h1 h2
    rcases hsc : score s p with _ | v
    · have := score_none_empty_pos hsc
      omega
    · rw [minimaxF_terminal hsc, minimaxF_terminal hsc]
  | succ g ih =>
    intro f₂ s p gm h1 h2
    rcases hsc : score s p with _ | v
    · cases f₂ with
      | zero =>
        have := score_none_empty_pos hsc
        omega
      | succ g₂ =>
        have hmap : ∀ q : Bool,
            (actions s).map (fun a => minimaxF g (place s a.1 a.2) p q)
            = (actions s).map (fun a => minimaxF g₂ (place s a.1 a.2) p q) := by
          intro q
          apply List.map_congr_left
          intro a ha
          have he := mem_actions.mp ha
          have := emptyCells_place he
          exact ih g₂ (place s a.1 a.2) p q (by omega) (by omega)
        cases gm with
        | true =>
          rw [minimaxF_step_min hsc, minimaxF_step_min hsc, hmap false]
        | false =>
          rw [minimaxF_step_max hsc, minimaxF_step_max hsc, hmap true]
    · rw [minimaxF_terminal hsc, minimaxF_terminal hsc]

end FuelIrrelevance
